import Mathlib

/-!
Verification of the `license-checker` path-selection rule engine and scan
orchestrator (`src/checker/checker.go`, with `src/main.go` as the CLI entry
point).  Paths are modelled as slash-separated strings (on the target
platform `filepath.ToSlash` is the identity, so canonicalization is a no-op
in the model).  File contents and the license-detection oracle are
abstracted as parameters, as the spec treats them as external collaborators.
-/

namespace LicenseChecker

/-- The suffixes of `s` reachable by consuming zero or more non-separator
characters from the front: all of them down to (and no further than) the
first `/`. -/
def upToSep : List Char → List (List Char)
  | [] => [[]]
  | c :: cs => (c :: cs) :: (if c = '/' then [] else upToSep cs)

/-- Modelled from the spec: the pattern-matching package (`match`, imported by
`checker.go` as `../match` via `match.New`) is not part of the given sources.
Per spec §4.1/§3: `?` matches exactly one non-separator character, `*` matches
zero or more non-separator characters (`upToSep` enumerates exactly the
remainders such a consumption can leave), `**` matches zero or more characters
including separators (any suffix may remain), literals match themselves, and
matching is anchored against the whole relative path.  A compiled pattern is
its character list; `patMatch p s` tests path characters `s` against pattern
characters `p`. -/
def patMatch : List Char → List Char → Bool
  | [], s => s.isEmpty
  | '*' :: '*' :: ps, s => s.tails.any (fun t => patMatch ps t)
  | '*' :: ps, s => (upToSep s).any (fun t => patMatch ps t)
  | '?' :: ps, s =>
      match s with
      | [] => false
      | c :: cs => (c != '/') && patMatch ps cs
  | c :: ps, s =>
      match s with
      | [] => false
      | d :: cs => (c == d) && patMatch ps cs

/-- A compiled pattern applied to a path string (the `match.Test` predicate). -/
def testPattern (pattern : String) (path : String) : Bool :=
  patMatch pattern.data path.data

/-- The body of the include/exclude closures built by
`searchRules.UnmarshalJSON`: try each pattern in turn, report whether any
matches the path. -/
def anyMatch (patterns : List String) (path : String) : Bool :=
  patterns.any (fun p => testPattern p path)

/-- A search rule, the tagged form of the closures appended by
`searchRules.UnmarshalJSON` (`include` from the `len(rule.Include) > 0` case,
`exclude` from the `len(rule.Exclude) > 0` case). -/
inductive SearchRule where
  | include (patterns : List String)
  | exclude (patterns : List String)
deriving DecidableEq, Repr

/-- `rule(path, cond)`: the include closure returns `true` as soon as some
pattern matches and otherwise falls through to `cond`; the exclude closure
returns `false` as soon as some pattern matches and otherwise `cond`. -/
def SearchRule.apply : SearchRule → String → Bool → Bool
  | .include pats, path, cond => if anyMatch pats path then true else cond
  | .exclude pats, path, cond => if anyMatch pats path then false else cond

/-- `Config`: a rule list (`Paths`) plus the permitted license names
(`Licenses`). -/
structure Config where
  paths : List SearchRule
  licenses : List String
deriving Repr

/-- The loop of `Config.shouldExamine` after `filepath.Rel` succeeded:
`res := true; for rule in c.Paths { res = rule(relPath, res) }; return res`. -/
def evalRules (rules : List SearchRule) (relPath : String) : Bool :=
  rules.foldl (fun res r => r.apply relPath res) true

/-- `Config.shouldExamine(root, absPath)`.  `filepath.Rel` is abstracted as a
parameter `relFn` returning `none` on failure (the `err != nil` branch, which
returns `false`); on success the rule loop runs on the relative path. -/
def shouldExamine (relFn : String → String → Option String) (c : Config)
    (root absPath : String) : Bool :=
  match relFn root absPath with
  | none => false
  | some relPath => evalRules c.paths relPath

/-- `Config.allowsLicense(name)`: linear search of the permitted list. -/
def allowsLicense (c : Config) (name : String) : Bool :=
  c.licenses.any (fun l => l == name)

/-- The rule-set evaluation written exactly as spec §4.2 words it:
initialize `decision = true`; for each rule in declaration order, an
`Include` whose any pattern matches sets the decision to `true`, an
`Exclude` whose any pattern matches sets it to `false`, otherwise the
decision is unchanged; the final decision is returned (no early exit). -/
def specEvaluateFrom (decision : Bool) : List SearchRule → String → Bool
  | [], _ => decision
  | .include pats :: rest, path =>
      specEvaluateFrom (if anyMatch pats path then true else decision) rest path
  | .exclude pats :: rest, path =>
      specEvaluateFrom (if anyMatch pats path then false else decision) rest path

/-- Spec §4.2 evaluation, starting from the default decision `true`. -/
def specEvaluate (rules : List SearchRule) (path : String) : Bool :=
  specEvaluateFrom true rules path

lemma specEvaluateFrom_eq_foldl (rules : List SearchRule) :
    ∀ (d : Bool) (path : String),
      specEvaluateFrom d rules path = rules.foldl (fun res r => r.apply path res) d := by
  induction rules with
  | nil => intro d path; rfl
  | cons r rest ih =>
      intro d path
      cases r
      all_goals simp only [specEvaluateFrom, List.foldl_cons, SearchRule.apply, ih]

/-- Per-file scan outcome, the tagged form of the three error values built by
`examine` (`fmt.Errorf` calls); carried data reproduces the format verbs. -/
inductive ScanErr where
  | readFailure (path : String) (cause : String)
  | noLicense (path : String)
  | notPermitted (path : String) (id : String)
deriving DecidableEq, Repr

/-- The error message text each `fmt.Errorf` in `examine` produces. -/
def ScanErr.message : ScanErr → String
  | .readFailure path cause => "Failed to read file " ++ quoted path ++ ": " ++ cause
  | .noLicense path => path ++ " has no license"
  | .notPermitted path id => path ++ " uses unsupported license " ++ quoted id
where quoted (s : String) : String := "'" ++ s ++ "'"

/-- The `for _, match := range cov.Match` loop of `examine`: return the
first detected identifier the config does not allow, else fall through. -/
def checkIds (c : Config) (path : String) : List String → Option ScanErr
  | [] => none
  | id :: rest =>
      if allowsLicense c id then checkIds c path rest
      else some (.notPermitted path id)

/-- `examine(root, path, cfg)`.  The filesystem read is abstracted as
`fs : String → Except String β` (keyed by the file's relative path; `.error`
carries the I/O error text `ioutil.ReadFile` would wrap) and the
`licensecheck.Scan` oracle as `oracle : β → List String` returning the
detected identifiers (`cov.Match` IDs). -/
def examine {β : Type} (fs : String → Except String β) (oracle : β → List String)
    (path : String) (c : Config) : Option ScanErr :=
  match fs path with
  | .error e => some (.readFailure path e)
  | .ok body =>
      let ids := oracle body
      if ids.isEmpty then some (.noLicense path)
      else checkIds c path ids

/-- `removeNilErrs(errs)`: a fresh slice holding the non-nil errors in their
original order. -/
def removeNilErrs : List (Option ScanErr) → List (Option ScanErr)
  | [] => []
  | none :: rest => removeNilErrs rest
  | some e :: rest => some e :: removeNilErrs rest

/-- The concurrent fan-out of `runConfig`: goroutine `i` writes `f i` into
slot `i` of the shared result slice.  A schedule is the order in which the
slot writes take effect; executing it is a fold of single-slot writes over
the initial all-`nil` slice.  Any interleaving of the goroutines is some
schedule, since each goroutine performs exactly one write to its own slot
and the `WaitGroup` join orders every write before the final read. -/
def runSchedule {α : Type} (init : List α) (f : Nat → α) (sched : List Nat) : List α :=
  sched.foldl (fun acc i => acc.set i (f i)) init

/-- `"%d errors:\n"` followed by `"* %v\n"` per error, as built by the
aggregate-failure branch of `Check`. -/
def formatErrs (errs : List ScanErr) : String :=
  toString errs.length ++ " errors:\n" ++
    String.join (errs.map (fun e => "* " ++ e.message ++ "\n"))

/-- The config loop of `Check`: the first config whose scan yields a
non-empty error list aborts the run with the aggregate message; if every
config's scan is clean the run succeeds (`none`).  The per-config scan
(`runConfig`, i.e. gather + concurrent examine + removeNilErrs) is
abstracted as `runCfg`, already reduced to its list of failures. -/
def checkConfigs (runCfg : Config → List ScanErr) : List Config → Option String
  | [] => none
  | c :: rest =>
      let errs := runCfg c
      if errs.isEmpty then checkConfigs runCfg rest
      else some (formatErrs errs)

/-- `Check(dir)` after resolving the root: `loadConfigs` either fails — and
`Check` returns the wrapped load error without scanning anything — or yields
the config list fed to the per-config loop. -/
def Check (loadResult : Except String (List Config))
    (runCfg : Config → List ScanErr) : Option String :=
  match loadResult with
  | .error e => some ("Failed to load config file: " ++ e)
  | .ok cfgs => checkConfigs runCfg cfgs

/-- One decoded entry of the `paths` array, before rule construction:
the `parsed` struct of `searchRules.UnmarshalJSON`. -/
structure ParsedRule where
  incl : List String
  excl : List String
deriving DecidableEq, Repr

/-- The rule-construction loop of `searchRules.UnmarshalJSON`: an entry with
both include and exclude patterns aborts decoding with the conflict error;
an include-only entry appends an include rule, an exclude-only entry an
exclude rule, and an empty entry appends nothing.  (Pattern compilation
`match.New` is total in the model, see `patMatch`.) -/
def rulesFromParsed : List ParsedRule → Except String (List SearchRule)
  | [] => .ok []
  | p :: rest =>
      if p.incl.length > 0 ∧ p.excl.length > 0 then
        .error "Rule cannot contain both include and exclude"
      else if p.incl.length > 0 then
        (rulesFromParsed rest).map (fun rs => .include p.incl :: rs)
      else if p.excl.length > 0 then
        (rulesFromParsed rest).map (fun rs => .exclude p.excl :: rs)
      else
        rulesFromParsed rest

/-- `ConfigFileName`, the reserved configuration filename at the root. -/
def ConfigFileName : String := "license-checker.cfg"

/-- A filesystem entry: a plain file or a directory with its entries
(in the order `filepath.Walk` visits them, i.e. sorted by name). -/
inductive FTree where
  | file (name : String)
  | dir (name : String) (children : List FTree)
deriving Repr

/-- Joins path segments with `/`, the slash form of the relative paths
`filepath.Walk`/`filepath.Rel` hand to the walk callback. -/
def relOf : List String → String
  | [] => ""
  | [n] => n
  | n :: rest => n ++ "/" ++ relOf rest

/-- The `filepath.Walk` callback loop of `gatherFiles` over the entries of
one directory, `pre` being the segments of the directory's relative path
(`[]` at the root).  Per entry with relative path `rel`:
`rel == ".git"` returns `filepath.SkipDir` — for a directory this prunes its
subtree, for a file it abandons the remaining entries of the containing
directory; `rel == cfgName` returns nil, skipping a file (a directory is
still descended into, since only `SkipDir` prunes); a file with
`shouldExamine` false is not collected; any other directory is descended
into regardless of its own rule result and is itself never collected.
Collected entries are the segment lists of the files appended to `files`. -/
def walkList (rules : List SearchRule) (cfgName : String) (pre : List String) :
    List FTree → List (List String)
  | [] => []
  | FTree.file name :: rest =>
      let segs := pre ++ [name]
      let rel := relOf segs
      if rel = ".git" then []
      else if rel = cfgName then walkList rules cfgName pre rest
      else if evalRules rules rel then segs :: walkList rules cfgName pre rest
      else walkList rules cfgName pre rest
  | FTree.dir name children :: rest =>
      if relOf (pre ++ [name]) = ".git" then walkList rules cfgName pre rest
      else walkList rules cfgName (pre ++ [name]) children ++ walkList rules cfgName pre rest

/-- `gatherFiles(root, cfg)`: the relative-path strings of the files the walk
collects, starting at the root's entries. -/
def gatherFiles (rules : List SearchRule) (t : List FTree) : List String :=
  (walkList rules ConfigFileName [] t).map relOf

/-- All file paths (as segment lists) in a list of entries, i.e. the
non-directory entries the walk would visit with no skipping at all. -/
def treeFilesList (pre : List String) : List FTree → List (List String)
  | [] => []
  | FTree.file name :: rest => (pre ++ [name]) :: treeFilesList pre rest
  | FTree.dir name children :: rest =>
      treeFilesList (pre ++ [name]) children ++ treeFilesList pre rest

/-- No top-level entry is a plain file named `.git` (in a real tree `.git`
is a directory; a top-level `.git` file would make `filepath.SkipDir` abandon
the rest of the root directory). -/
def noTopGitFile (t : List FTree) : Bool :=
  t.all (fun e => match e with
    | FTree.file name => name ≠ ".git"
    | FTree.dir _ _ => true)

/-- Every entry name is nonempty and free of the path separator, as real
directory entry names are. -/
def validEntries : List FTree → Bool
  | [] => true
  | FTree.file name :: rest =>
      decide (name ≠ "" ∧ '/' ∉ name.data) && validEntries rest
  | FTree.dir name children :: rest =>
      decide (name ≠ "" ∧ '/' ∉ name.data) && validEntries children && validEntries rest

/-! ### Lemmas about the license-identifier loop -/

lemma checkIds_eq_none_iff (c : Config) (path : String) (ids : List String) :
    checkIds c path ids = none ↔ ∀ x ∈ ids, allowsLicense c x = true := by
  induction ids with
  | nil => simp [checkIds]
  | cons id rest ih =>
      by_cases h : allowsLicense c id = true
      · simp [checkIds, h, ih]
      · simp [checkIds, h]

lemma checkIds_eq_some (c : Config) (path : String) (ids : List String) (err : ScanErr)
    (h : checkIds c path ids = some err) :
    ∃ id pre post, err = ScanErr.notPermitted path id ∧ ids = pre ++ id :: post ∧
      (∀ x ∈ pre, allowsLicense c x = true) ∧ allowsLicense c id = false := by
  induction ids with
  | nil => simp [checkIds] at h
  | cons hd rest ih =>
      by_cases hall : allowsLicense c hd = true
      · simp only [checkIds, hall, if_true] at h
        obtain ⟨id, pre, post, h1, h2, h3, h4⟩ := ih h
        exact ⟨id, hd :: pre, post, h1, by simp [h2], by simpa [hall] using h3, h4⟩
      · simp only [checkIds, hall, if_false] at h
        refine ⟨hd, [], rest, ?_, rfl, by simp, by simpa using hall⟩
        simpa using h.symm

lemma checkIds_first_offender (c : Config) (path : String) (id : String)
    (pre post : List String) (hpre : ∀ x ∈ pre, allowsLicense c x = true)
    (hid : allowsLicense c id = false) :
    checkIds c path (pre ++ id :: post) = some (ScanErr.notPermitted path id) := by
  induction pre with
  | nil => simp [checkIds, hid]
  | cons hd rest ih =>
      have h1 : allowsLicense c hd = true := hpre hd (by simp)
      have h2 : ∀ x ∈ rest, allowsLicense c x = true := fun x hx => hpre x (by simp [hx])
      simp [checkIds, h1, ih h2]

/-! ### Claim theorems: rule evaluation -/

/-- C1: for every relative path and every rule sequence, `shouldExamine`
(once `filepath.Rel` has produced the relative path) equals the spec's pure
left fold over the rules in declaration order starting from `decision = true`
— an `Include` rule with a matching pattern sets the decision to `true`, an
`Exclude` rule with a matching pattern sets it to `false`, a rule matching
no pattern leaves it unchanged, the final accumulator is returned with no
early exit — and with an empty rule list the result is `true` for every
path. -/
theorem claim_C1_shouldExamine_is_spec_fold :
    (∀ (relFn : String → String → Option String) (c : Config)
        (root absPath relPath : String),
        relFn root absPath = some relPath →
        shouldExamine relFn c root absPath = specEvaluate c.paths relPath)
    ∧ (∀ path : String, specEvaluate [] path = true) := by
  constructor
  · intro relFn c root absPath relPath h
    simp [shouldExamine, h, specEvaluate, specEvaluateFrom_eq_foldl, evalRules]
  · intro path
    rfl

/-- Witness for C1 at a concrete rule list and path. -/
theorem claim_C1_witness :
    shouldExamine (fun _ _ => some "out/foo.txt")
        ⟨[SearchRule.exclude ["out/*"], SearchRule.include ["out/foo.txt"]], []⟩
        "/r" "/r/out/foo.txt"
      = specEvaluate [SearchRule.exclude ["out/*"], SearchRule.include ["out/foo.txt"]]
          "out/foo.txt" :=
  claim_C1_shouldExamine_is_spec_fold.1 (fun _ _ => some "out/foo.txt")
    ⟨[SearchRule.exclude ["out/*"], SearchRule.include ["out/foo.txt"]], []⟩
    "/r" "/r/out/foo.txt" "out/foo.txt" rfl

/-- C9: if the root-relative form of a candidate path cannot be computed
(`filepath.Rel` fails), `shouldExamine` returns `false` regardless of the
rule list — including the empty rule list — even though the default decision
is include. -/
theorem claim_C9_rel_failure_excludes
    (relFn : String → String → Option String) (c : Config) (root absPath : String)
    (h : relFn root absPath = none) :
    shouldExamine relFn c root absPath = false := by
  simp [shouldExamine, h]

/-- Witness for C9: a failing `Rel` with the empty rule list yields `false`. -/
theorem claim_C9_witness :
    shouldExamine (fun _ _ => none) ⟨[], []⟩ "/r" "other" = false :=
  claim_C9_rel_failure_excludes (fun _ _ => none) ⟨[], []⟩ "/r" "other" rfl

/-! ### Claim theorems: per-file examination -/

/-- C4: `examine` classifies every file as exactly one of four outcomes:
a read failure yields the read-failure error carrying that file's path and
cause; a successful read with zero oracle matches yields the no-license
error; a result naming an unpermitted identifier arises exactly when that
identifier is the first detected one absent from the permitted list (the
identifiers after it are never consulted); and `nil` arises exactly when at
least one identifier was detected and all detected identifiers are
permitted.  Moreover the outcome for one file is unaffected by what the
filesystem holds at any other path, so one file's read failure cannot abort
the others. -/
theorem claim_C4_examine_classification (β : Type) (fs : String → Except String β)
    (oracle : β → List String) (path : String) (c : Config) :
    (∀ e, examine fs oracle path c = some (ScanErr.readFailure path e) ↔
        fs path = .error e)
    ∧ (examine fs oracle path c = some (ScanErr.noLicense path) ↔
        ∃ b, fs path = .ok b ∧ oracle b = [])
    ∧ (∀ id, examine fs oracle path c = some (ScanErr.notPermitted path id) ↔
        ∃ b pre post, fs path = .ok b ∧ oracle b = pre ++ id :: post ∧
          (∀ x ∈ pre, allowsLicense c x = true) ∧ allowsLicense c id = false)
    ∧ (examine fs oracle path c = none ↔
        ∃ b, fs path = .ok b ∧ oracle b ≠ [] ∧ ∀ x ∈ oracle b, allowsLicense c x = true)
    ∧ (∀ (fs' : String → Except String β), (∀ q, q ≠ path → fs' q = fs q) →
        ∀ q, q ≠ path → examine fs' oracle q c = examine fs oracle q c) := by
  have hexok : ∀ b, fs path = .ok b →
      examine fs oracle path c =
        (if (oracle b).isEmpty then some (ScanErr.noLicense path)
         else checkIds c path (oracle b)) := by
    intro b hb
    simp [examine, hb]
  refine ⟨?_, ?_, ?_, ?_, ?_⟩
  · intro e
    cases hfs : fs path with
    | error e2 => simp [examine, hfs]
    | ok b =>
        rw [hexok b hfs]
        cases hor : oracle b with
        | nil => simp
        | cons id rest =>
            simp only [List.isEmpty_cons, Bool.false_eq_true, if_false]
            constructor
            · intro h
              obtain ⟨_, _, _, h1, _⟩ := checkIds_eq_some c path _ _ h
              simp at h1
            · intro h
              simp at h
  · cases hfs : fs path with
    | error e2 => simp [examine, hfs]
    | ok b =>
        rw [hexok b hfs]
        cases hor : oracle b with
        | nil => simp [hfs, hor]
        | cons id rest =>
            simp only [List.isEmpty_cons, Bool.false_eq_true, if_false]
            constructor
            · intro h
              obtain ⟨_, _, _, h1, _⟩ := checkIds_eq_some c path _ _ h
              simp at h1
            · rintro ⟨b2, hb2, h⟩
              have hbb : b = b2 := by simpa using hb2
              subst hbb
              simp [h] at hor
  · intro id
    cases hfs : fs path with
    | error e2 => simp [examine, hfs]
    | ok b =>
        rw [hexok b hfs]
        cases hor : oracle b with
        | nil =>
            simp only [List.isEmpty_nil, if_true]
            constructor
            · intro h
              simp at h
            · rintro ⟨b2, pre, post, hb2, hids, _, _⟩
              have hbb : b = b2 := by simpa using hb2
              subst hbb
              rw [hor] at hids
              simp at hids
        | cons hd rest =>
            simp only [List.isEmpty_cons, Bool.false_eq_true, if_false]
            constructor
            · intro h
              obtain ⟨id2, pre, post, h1, h2, h3, h4⟩ := checkIds_eq_some c path _ _ h
              have hid2 : id2 = id := by
                simpa [ScanErr.notPermitted.injEq] using h1.symm
              subst hid2
              exact ⟨b, pre, post, rfl, by rw [hor, h2], h3, h4⟩
            · rintro ⟨b2, pre, post, hb2, hids, hpre, hid⟩
              have hbb : b = b2 := by simpa using hb2
              subst hbb
              rw [hor] at hids
              rw [hids]
              exact checkIds_first_offender c path id pre post hpre hid
  · cases hfs : fs path with
    | error e2 => simp [examine, hfs]
    | ok b =>
        rw [hexok b hfs]
        cases hor : oracle b with
        | nil =>
            simp only [List.isEmpty_nil, if_true]
            constructor
            · intro h
              simp at h
            · rintro ⟨b2, hb2, hne, _⟩
              have hbb : b = b2 := by simpa using hb2
              subst hbb
              rw [hor] at hne
              simp at hne
        | cons hd rest =>
            simp only [List.isEmpty_cons, Bool.false_eq_true, if_false]
            rw [checkIds_eq_none_iff]
            constructor
            · intro h
              exact ⟨b, rfl, by simp [hor], by rw [hor]; exact h⟩
            · rintro ⟨b2, hb2, _, h⟩
              have hbb : b = b2 := by simpa using hb2
              subst hbb
              rw [hor] at h
              exact h
  · intro fs' hagree q hq
    simp [examine, hagree q hq]

/-- Witness for C4: a config permitting only MIT, an oracle detecting
`["MIT", "GPL"]`: the file is reported for `GPL`… actually for the first
unpermitted identifier. -/
theorem claim_C4_witness :
    examine (fun _ => Except.ok ()) (fun _ => ["MIT", "GPL-2.0"]) "a.c"
        ⟨[], ["MIT"]⟩ = some (ScanErr.notPermitted "a.c" "GPL-2.0") :=
  ((claim_C4_examine_classification Unit (fun _ => Except.ok ())
      (fun _ => ["MIT", "GPL-2.0"]) "a.c" ⟨[], ["MIT"]⟩).2.2.1 "GPL-2.0").mpr
    ⟨(), ["MIT"], [], rfl, rfl, by decide, by decide⟩

/-- C10: with an empty permitted-license list, `allowsLicense` rejects every
identifier, so a successfully read file with at least one detected license
fails as not-permitted (naming the first detected identifier), a
successfully read file with no detected license fails as no-license, and no
selected file can come out `ok`. -/
theorem claim_C10_empty_license_list (c : Config) (hc : c.licenses = []) :
    (∀ id, allowsLicense c id = false)
    ∧ (∀ (β : Type) (fs : String → Except String β) (oracle : β → List String)
        (path : String) (b : β) (id : String) (rest : List String),
        fs path = .ok b → oracle b = id :: rest →
        examine fs oracle path c = some (ScanErr.notPermitted path id))
    ∧ (∀ (β : Type) (fs : String → Except String β) (oracle : β → List String)
        (path : String) (b : β),
        fs path = .ok b → oracle b = [] →
        examine fs oracle path c = some (ScanErr.noLicense path))
    ∧ (∀ (β : Type) (fs : String → Except String β) (oracle : β → List String)
        (path : String), examine fs oracle path c ≠ none) := by
  have hallow : ∀ id, allowsLicense c id = false := by
    intro id; simp [allowsLicense, hc]
  refine ⟨hallow, ?_, ?_, ?_⟩
  · intro β fs oracle path b id rest hfs hor
    simp [examine, hfs, hor, checkIds, hallow id]
  · intro β fs oracle path b hfs hor
    simp [examine, hfs, hor]
  · intro β fs oracle path
    cases hfs : fs path with
    | error e => simp [examine, hfs]
    | ok b =>
        cases hor : oracle b with
        | nil => simp [examine, hfs, hor]
        | cons id rest => simp [examine, hfs, hor, checkIds, hallow id]

/-- Witness for C10: an empty license list turns a detected Apache header
into a not-permitted failure. -/
theorem claim_C10_witness :
    examine (fun _ => Except.ok ()) (fun _ => ["Apache-2.0"]) "b.c" ⟨[], []⟩
      = some (ScanErr.notPermitted "b.c" "Apache-2.0") :=
  (claim_C10_empty_license_list ⟨[], []⟩ rfl).2.1 Unit (fun _ => Except.ok ())
    (fun _ => ["Apache-2.0"]) "b.c" () "Apache-2.0" [] rfl rfl

/-! ### Claim theorems: run aggregation -/

/-- C5: `Check` processes the configs in declaration order; the first one
whose scan produces failures makes the run return the single aggregate
message (`formatErrs`: count, then one line per failing file in scan-result
order), and the run's result is unchanged by whatever configs follow the
failing one (they are not processed); if every config's scan is clean the
run succeeds. -/
theorem claim_C5_first_failing_config_aborts :
    (∀ (runCfg : Config → List ScanErr) (cfgs : List Config) (i : Nat)
        (hi : i < cfgs.length),
        (∀ j (hj : j < i), runCfg (cfgs.get ⟨j, Nat.lt_trans hj hi⟩) = []) →
        runCfg (cfgs.get ⟨i, hi⟩) ≠ [] →
        checkConfigs runCfg cfgs = some (formatErrs (runCfg (cfgs.get ⟨i, hi⟩)))
        ∧ ∀ (tail : List Config),
            checkConfigs runCfg (cfgs.take (i+1) ++ tail) = checkConfigs runCfg cfgs)
    ∧ (∀ (runCfg : Config → List ScanErr) (cfgs : List Config),
        (∀ c ∈ cfgs, runCfg c = []) → checkConfigs runCfg cfgs = none) := by
  constructor
  · intro runCfg cfgs
    induction cfgs with
    | nil =>
        intro i hi
        exact absurd hi (by simp)
    | cons c rest ih =>
        intro i hi hprev hcur
        cases i with
        | zero =>
            have hne : (runCfg c).isEmpty = false := by
              simpa [List.isEmpty_iff] using hcur
            refine ⟨by simp [checkConfigs, hne], ?_⟩
            intro tail
            simp [checkConfigs, hne]
        | succ i2 =>
            have h0 : runCfg c = [] := by simpa using hprev 0 (Nat.succ_pos i2)
            have hi2 : i2 < rest.length := by simpa using hi
            have hprev2 : ∀ j (hj : j < i2),
                runCfg (rest.get ⟨j, Nat.lt_trans hj hi2⟩) = [] := by
              intro j hj
              simpa using hprev (j+1) (Nat.succ_lt_succ hj)
            have hcur2 : runCfg (rest.get ⟨i2, hi2⟩) ≠ [] := by simpa using hcur
            obtain ⟨ha, hb⟩ := ih i2 hi2 hprev2 hcur2
            constructor
            · simpa [checkConfigs, h0] using ha
            · intro tail
              have hc := hb tail
              simp only [List.take_succ_cons, List.cons_append]
              simp only [checkConfigs, h0, List.isEmpty_nil, if_true]
              exact hc
  · intro runCfg cfgs
    induction cfgs with
    | nil => intro _; rfl
    | cons c rest ih =>
        intro hall
        have h0 : runCfg c = [] := hall c (by simp)
        have hr := ih (fun x hx => hall x (by simp [hx]))
        simpa [checkConfigs, h0] using hr

/-- Witness for C5: the second of two configs fails, so the run returns
its aggregate message. -/
theorem claim_C5_witness :
    checkConfigs
        (fun c => if c.licenses.isEmpty then [ScanErr.noLicense "f"] else [])
        [⟨[], ["MIT"]⟩, ⟨[], []⟩]
      = some (formatErrs [ScanErr.noLicense "f"]) := by
  have h := (claim_C5_first_failing_config_aborts.1
      (fun c => if c.licenses.isEmpty then [ScanErr.noLicense "f"] else [])
      [⟨[], ["MIT"]⟩, ⟨[], []⟩] 1 (by simp)
      (fun j hj => by have hj0 : j = 0 := by omega
                      subst hj0; rfl)
      (by decide)).1
  simpa using h

/-- C7: configuration errors are fatal before any file is scanned — a failed
config load makes `Check` return a single error carrying the
`Failed to load config file` marker, independently of the per-config scan
function (so no project file is examined); and a rule entry carrying both an
include and an exclude pattern list makes rule decoding fail with
`Rule cannot contain both include and exclude`. -/
theorem claim_C7_config_errors_fatal :
    (∀ (e : String) (runCfg : Config → List ScanErr),
        Check (Except.error e) runCfg = some ("Failed to load config file: " ++ e)
        ∧ ("Failed to load config file").data <+: ("Failed to load config file: " ++ e).data
        ∧ ∀ (runCfg2 : Config → List ScanErr),
            Check (Except.error e) runCfg = Check (Except.error e) runCfg2)
    ∧ (∀ (ps : List ParsedRule) (p : ParsedRule), p ∈ ps →
        p.incl ≠ [] → p.excl ≠ [] →
        rulesFromParsed ps =
          Except.error "Rule cannot contain both include and exclude") := by
  constructor
  · intro e runCfg
    refine ⟨rfl, ?_, fun _ => rfl⟩
    have h1 : ("Failed to load config file").data <+:
        ("Failed to load config file: ").data := by decide
    have h2 : ("Failed to load config file: ").data <+:
        ("Failed to load config file: ").data ++ e.data := List.prefix_append _ _
    exact h1.trans h2
  · intro ps
    induction ps with
    | nil => intro p hp; exact absurd hp (by simp)
    | cons q rest ih =>
        intro p hp hincl hexcl
        rcases List.mem_cons.mp hp with rfl | hmem
        · have hq : p.incl.length > 0 ∧ p.excl.length > 0 :=
            ⟨List.length_pos.mpr hincl, List.length_pos.mpr hexcl⟩
          simp [rulesFromParsed, hq]
        · have hrest := ih p hmem hincl hexcl
          by_cases hq : q.incl.length > 0 ∧ q.excl.length > 0
          · simp [rulesFromParsed, hq]
          · by_cases hqi : q.incl.length > 0
            · simp [rulesFromParsed, hq, hqi, hrest, Except.map]
            · by_cases hqe : q.excl.length > 0
              · simp [rulesFromParsed, hq, hqi, hqe, hrest, Except.map]
              · simp [rulesFromParsed, hq, hqi, hqe, hrest]

/-- Witness for C7: a single conflicting entry is rejected. -/
theorem claim_C7_witness :
    rulesFromParsed [⟨["a"], ["b"]⟩] =
      Except.error "Rule cannot contain both include and exclude" :=
  claim_C7_config_errors_fatal.2 [⟨["a"], ["b"]⟩] ⟨["a"], ["b"]⟩ (by simp)
    (by simp) (by simp)

/-! ### Claim theorems: the concurrent scan -/

lemma runSchedule_cons {α : Type} (init : List α) (f : Nat → α) (i : Nat)
    (rest : List Nat) :
    runSchedule init f (i :: rest) = runSchedule (init.set i (f i)) f rest := rfl

lemma runSchedule_get? {α : Type} (sched : List Nat) (init : List α) (f : Nat → α)
    (j : Nat) :
    (runSchedule init f sched).get? j =
      if j ∈ sched ∧ j < init.length then some (f j) else init.get? j := by
  induction sched generalizing init with
  | nil => simp [runSchedule]
  | cons i rest ih =>
      rw [runSchedule_cons, ih]
      by_cases hj : j < init.length
      · by_cases hmem : j ∈ rest
        · rw [if_pos ⟨hmem, by simpa using hj⟩, if_pos ⟨by simp [hmem], hj⟩]
        · rw [if_neg (fun hcon => hmem hcon.1)]
          by_cases hij : i = j
          · subst hij
            rw [List.get?_set_eq_of_lt _ hj, if_pos ⟨by simp, hj⟩]
          · have hji : ¬ j = i := fun hh => hij hh.symm
            rw [List.get?_set_ne _ _ hij,
              if_neg (fun hcon => by
                rcases List.mem_cons.mp hcon.1 with h | h
                · exact hji h
                · exact hmem h)]
      · have hle : init.length ≤ j := Nat.le_of_not_lt hj
        have h1 : init.get? j = none := List.get?_len_le hle
        have h2 : (init.set i (f i)).get? j = none := by
          apply List.get?_len_le
          simpa using hle
        rw [if_neg (fun hcon => hj (by simpa using hcon.2)),
          if_neg (fun hcon => hj hcon.2), h1, h2]

lemma removeNilErrs_eq_filter (l : List (Option ScanErr)) :
    removeNilErrs l = l.filter Option.isSome := by
  induction l with
  | nil => rfl
  | cons e rest ih => cases e <;> simp [removeNilErrs, ih, List.filter]

/-- C3: the concurrent per-file scan is equivalent to the sequential
reference.  Whatever order the per-slot writes complete in (any permutation
of the input indices), the result array afterwards holds in slot `i` exactly
the outcome of examining `files[i]`; and `removeNilErrs` keeps the surviving
errors in original-index order (it is the order-preserving filter of the
by-index array, never completion order). -/
theorem claim_C3_concurrent_scan_equals_sequential (β : Type)
    (fs : String → Except String β) (oracle : β → List String) (c : Config)
    (files : List String) (sched : List Nat)
    (hperm : sched.Perm (List.range files.length)) :
    runSchedule (List.replicate files.length (none : Option ScanErr))
        (fun i => examine fs oracle (files.getD i "") c) sched
      = files.map (fun p => examine fs oracle p c)
    ∧ removeNilErrs (files.map (fun p => examine fs oracle p c))
      = (files.map (fun p => examine fs oracle p c)).filter Option.isSome := by
  refine ⟨?_, removeNilErrs_eq_filter _⟩
  apply List.ext_get?
  intro j
  rw [runSchedule_get?]
  by_cases hj : j < files.length
  · have hjs : j ∈ sched := hperm.mem_iff.mpr (List.mem_range.mpr hj)
    have h1 : (files.map (fun p => examine fs oracle p c)).get? j =
        some (examine fs oracle (files.getD j "") c) := by
      rw [List.get?_map, List.get?_eq_get hj]
      have hgd : files.getD j "" = files.get ⟨j, hj⟩ := List.getD_eq_get files "" hj
      rw [hgd]
      rfl
    rw [if_pos ⟨hjs, by simpa using hj⟩, h1]
  · have h1 : (List.replicate files.length (none : Option ScanErr)).get? j = none :=
      List.get?_len_le (by simpa using Nat.le_of_not_lt hj)
    have h2 : (files.map (fun p => examine fs oracle p c)).get? j = none :=
      List.get?_len_le (by simpa using Nat.le_of_not_lt hj)
    rw [if_neg (fun hcon => hj (by simpa using hcon.2)), h1, h2]

/-- Witness for C3: two files scanned with the writes landing in reverse
completion order still fill the slots by input index. -/
theorem claim_C3_witness :
    runSchedule (List.replicate (["a", "b"] : List String).length (none : Option ScanErr))
        (fun i => examine (fun _ => (Except.error "boom" : Except String Unit))
          (fun _ => ([] : List String)) ((["a", "b"] : List String).getD i "") ⟨[], []⟩)
        [1, 0]
      = (["a", "b"] : List String).map
          (fun p => examine (fun _ => (Except.error "boom" : Except String Unit))
            (fun _ => ([] : List String)) p ⟨[], []⟩)
    ∧ removeNilErrs ((["a", "b"] : List String).map
          (fun p => examine (fun _ => (Except.error "boom" : Except String Unit))
            (fun _ => ([] : List String)) p ⟨[], []⟩))
      = ((["a", "b"] : List String).map
          (fun p => examine (fun _ => (Except.error "boom" : Except String Unit))
            (fun _ => ([] : List String)) p ⟨[], []⟩)).filter Option.isSome :=
  claim_C3_concurrent_scan_equals_sequential Unit
    (fun _ => (Except.error "boom" : Except String Unit))
    (fun _ => ([] : List String)) ⟨[], []⟩ ["a", "b"] [1, 0] (by decide)

/-! ### Claim theorems: pattern semantics -/

lemma nil_mem_upToSep (s : List Char) : [] ∈ upToSep s ↔ '/' ∉ s := by
  induction s with
  | nil => simp [upToSep]
  | cons c cs ih =>
      by_cases hc : c = '/'
      · subst hc; simp [upToSep]
      · simp [upToSep, hc, ih, Ne.symm hc]

lemma patMatch_single_star (s : List Char) : patMatch ['*'] s = true ↔ '/' ∉ s := by
  rw [show patMatch ['*'] s = (upToSep s).any (fun t => patMatch [] t) from rfl]
  rw [List.any_eq_true]
  constructor
  · rintro ⟨t, ht, hm⟩
    have ht0 : t = [] := by
      cases t with
      | nil => rfl
      | cons a l => simp [patMatch] at hm
    subst ht0
    exact (nil_mem_upToSep s).mp ht
  · intro h
    exact ⟨[], (nil_mem_upToSep s).mpr h, rfl⟩

lemma patMatch_double_star (s : List Char) : patMatch ['*', '*'] s = true := by
  rw [show patMatch ['*', '*'] s = s.tails.any (fun t => patMatch [] t) from rfl]
  rw [List.any_eq_true]
  refine ⟨[], (List.mem_tails _ _).mpr ?_, rfl⟩
  exact List.nil_suffix

lemma patMatch_literal (p : List Char) (hs : '*' ∉ p) (hq : '?' ∉ p) :
    ∀ s, patMatch p s = true ↔ s = p := by
  induction p with
  | nil =>
      intro s
      cases s <;> simp [patMatch]
  | cons c ps ih =>
      intro s
      have hc1 : c ≠ '*' := fun h => hs (by simp [h])
      have hc2 : c ≠ '?' := fun h => hq (by simp [h])
      have hs2 : '*' ∉ ps := fun h => hs (by simp [h])
      have hq2 : '?' ∉ ps := fun h => hq (by simp [h])
      cases s with
      | nil => simp [patMatch, hc1, hc2]
      | cons d cs =>
          rw [show patMatch (c :: ps) (d :: cs) = ((c == d) && patMatch ps cs) from by
            simp [patMatch, hc1, hc2]]
          simp only [Bool.and_eq_true, beq_iff_eq, List.cons.injEq]
          rw [ih hs2 hq2]
          constructor
          · rintro ⟨h1, h2⟩
            exact ⟨h1.symm, h2⟩
          · rintro ⟨h1, h2⟩
            exact ⟨h1.symm, h2⟩

/-- C6: the compiled pattern `*` matches a path exactly when it contains no
separator (so `*` never matches across a path segment boundary), the
compiled pattern `**` matches every path, including ones with separators and
the empty one; and matching is anchored against the whole relative path —
a wildcard-free pattern matches exactly the single path equal to it (never a
proper substring, prefix or suffix). -/
theorem claim_C6_wildcard_semantics :
    (∀ path : String, testPattern "*" path = true ↔ '/' ∉ path.data)
    ∧ (∀ path : String, testPattern "**" path = true)
    ∧ (∀ (p path : String), '*' ∉ p.data → '?' ∉ p.data →
        (testPattern p path = true ↔ path.data = p.data)) :=
  ⟨fun path => patMatch_single_star path.data,
   fun path => patMatch_double_star path.data,
   fun p path hs hq => patMatch_literal p.data hs hq path.data⟩

/-- Witness for C6: the literal pattern `out/foo.txt` matches itself. -/
theorem claim_C6_witness :
    testPattern "out/foo.txt" "out/foo.txt" = true ↔
      "out/foo.txt".data = "out/foo.txt".data :=
  claim_C6_wildcard_semantics.2.2 "out/foo.txt" "out/foo.txt"
    (by decide) (by decide)

/-! ### Lemmas about the file walker -/

lemma slash_mem_relOf (x : String) (l : List String) (hl : l ≠ []) :
    '/' ∈ (relOf (x :: l)).data := by
  cases l with
  | nil => exact absurd rfl hl
  | cons y l2 =>
      have h1 : (relOf (x :: y :: l2)).data =
          (x.data ++ "/".data) ++ (relOf (y :: l2)).data := rfl
      rw [h1]
      simp

lemma relOf_ne_git (pre : List String) (name : String) (hpre : pre ≠ []) :
    relOf (pre ++ [name]) ≠ ".git" := by
  intro h
  cases pre with
  | nil => exact hpre rfl
  | cons x l =>
      have hmem : '/' ∈ (relOf (x :: (l ++ [name]))).data :=
        slash_mem_relOf x (l ++ [name]) (by simp)
      rw [show (x :: l) ++ [name] = x :: (l ++ [name]) from rfl] at h
      rw [h] at hmem
      exact absurd hmem (by decide)

lemma treeFilesList_shape (pre : List String) (t : List FTree) :
    ∀ segs ∈ treeFilesList pre t, ∃ rest, segs = pre ++ rest ∧ rest ≠ [] := by
  induction pre, t using treeFilesList.induct with
  | case1 pre => simp [treeFilesList]
  | case2 pre name rest ih =>
      intro segs hm
      rw [treeFilesList] at hm
      rcases List.mem_cons.mp hm with rfl | hm2
      · exact ⟨[name], rfl, by simp⟩
      · exact ih segs hm2
  | case3 pre name children rest ih1 ih2 =>
      intro segs hm
      rw [treeFilesList, List.mem_append] at hm
      rcases hm with hm1 | hm2
      · obtain ⟨r, hr, hne⟩ := ih1 segs hm1
        exact ⟨[name] ++ r, by simp [hr], by simp⟩
      · exact ih2 segs hm2

lemma walkList_sound (rules : List SearchRule) (cfg : String) :
    ∀ (pre : List String) (t : List FTree) (segs : List String),
      segs ∈ walkList rules cfg pre t →
      (∃ rest, segs = pre ++ rest ∧ rest ≠ [])
      ∧ relOf segs ≠ cfg ∧ relOf segs ≠ ".git"
      ∧ evalRules rules (relOf segs) = true := by
  intro pre0 t0
  induction pre0, t0 using walkList.induct rules cfg with
  | case1 pre => simp [walkList]
  | case2 pre name rest s0 r0 hgit0 =>
      have hgit : relOf (pre ++ [name]) = ".git" := hgit0
      intro segs hm
      simp only [walkList, hgit, if_true] at hm
      exact absurd hm (by simp)
  | case3 pre name rest s0 r0 hgit0 hcfg0 ih =>
      have hgit : relOf (pre ++ [name]) ≠ ".git" := hgit0
      have hcfg : relOf (pre ++ [name]) = cfg := hcfg0
      intro segs hm
      rw [show walkList rules cfg pre (FTree.file name :: rest) =
            walkList rules cfg pre rest from by
          simp only [walkList]
          rw [if_neg hgit, if_pos hcfg]] at hm
      exact ih segs hm
  | case4 pre name rest s0 r0 hgit0 hcfg0 heval0 ih =>
      have hgit : relOf (pre ++ [name]) ≠ ".git" := hgit0
      have hcfg : relOf (pre ++ [name]) ≠ cfg := hcfg0
      have heval : evalRules rules (relOf (pre ++ [name])) = true := heval0
      intro segs hm
      rw [show walkList rules cfg pre (FTree.file name :: rest) =
            (pre ++ [name]) :: walkList rules cfg pre rest from by
          simp only [walkList]
          rw [if_neg hgit, if_neg hcfg, if_pos heval]] at hm
      rcases List.mem_cons.mp hm with rfl | hm2
      · exact ⟨⟨[name], rfl, by simp⟩, hcfg, hgit, heval⟩
      · exact ih segs hm2
  | case5 pre name rest s0 r0 hgit0 hcfg0 hneval0 ih =>
      have hgit : relOf (pre ++ [name]) ≠ ".git" := hgit0
      have hcfg : relOf (pre ++ [name]) ≠ cfg := hcfg0
      have hneval : ¬ evalRules rules (relOf (pre ++ [name])) = true := hneval0
      intro segs hm
      rw [show walkList rules cfg pre (FTree.file name :: rest) =
            walkList rules cfg pre rest from by
          simp only [walkList]
          rw [if_neg hgit, if_neg hcfg, if_neg hneval]] at hm
      exact ih segs hm
  | case6 pre name children rest hgit ih =>
      intro segs hm
      simp only [walkList, hgit, if_true] at hm
      exact ih segs hm
  | case7 pre name children rest hgit ih1 ih2 =>
      intro segs hm
      simp only [walkList, hgit, if_false] at hm
      rcases List.mem_append.mp hm with hm1 | hm2
      · obtain ⟨⟨r, hr, hne⟩, h2, h3, h4⟩ := ih1 segs hm1
        exact ⟨⟨[name] ++ r, by simp [hr], by simp⟩, h2, h3, h4⟩
      · exact ih2 segs hm2

lemma walkList_nested_iff (rules : List SearchRule) (cfg : String) :
    ∀ (pre : List String) (t : List FTree), pre ≠ [] → ∀ segs,
      (segs ∈ walkList rules cfg pre t ↔
        segs ∈ treeFilesList pre t ∧ relOf segs ≠ cfg
        ∧ evalRules rules (relOf segs) = true) := by
  intro pre0 t0
  induction pre0, t0 using walkList.induct rules cfg with
  | case1 pre =>
      intro hpre segs
      simp [walkList, treeFilesList]
  | case2 pre name rest s0 r0 hgit0 =>
      have hgit : relOf (pre ++ [name]) = ".git" := hgit0
      intro hpre segs
      exact absurd hgit (relOf_ne_git pre name hpre)
  | case3 pre name rest s0 r0 hgit0 hcfg0 ih =>
      have hgit : relOf (pre ++ [name]) ≠ ".git" := hgit0
      have hcfg : relOf (pre ++ [name]) = cfg := hcfg0
      intro hpre segs
      rw [show walkList rules cfg pre (FTree.file name :: rest) =
            walkList rules cfg pre rest from by
          simp only [walkList]
          rw [if_neg hgit, if_pos hcfg]]
      rw [ih hpre segs]
      simp only [treeFilesList, List.mem_cons]
      constructor
      · rintro ⟨h1, h2, h3⟩
        exact ⟨Or.inr h1, h2, h3⟩
      · rintro ⟨h1 | h1, h2, h3⟩
        · subst h1
          exact absurd hcfg h2
        · exact ⟨h1, h2, h3⟩
  | case4 pre name rest s0 r0 hgit0 hcfg0 heval0 ih =>
      have hgit : relOf (pre ++ [name]) ≠ ".git" := hgit0
      have hcfg : relOf (pre ++ [name]) ≠ cfg := hcfg0
      have heval : evalRules rules (relOf (pre ++ [name])) = true := heval0
      intro hpre segs
      rw [show walkList rules cfg pre (FTree.file name :: rest) =
            (pre ++ [name]) :: walkList rules cfg pre rest from by
          simp only [walkList]
          rw [if_neg hgit, if_neg hcfg, if_pos heval]]
      simp only [treeFilesList, List.mem_cons]
      constructor
      · rintro (rfl | h1)
        · exact ⟨Or.inl rfl, hcfg, heval⟩
        · obtain ⟨a, b, c⟩ := (ih hpre segs).mp h1
          exact ⟨Or.inr a, b, c⟩
      · rintro ⟨h1 | h1, h2, h3⟩
        · subst h1
          exact Or.inl rfl
        · exact Or.inr ((ih hpre segs).mpr ⟨h1, h2, h3⟩)
  | case5 pre name rest s0 r0 hgit0 hcfg0 hneval0 ih =>
      have hgit : relOf (pre ++ [name]) ≠ ".git" := hgit0
      have hcfg : relOf (pre ++ [name]) ≠ cfg := hcfg0
      have hneval : ¬ evalRules rules (relOf (pre ++ [name])) = true := hneval0
      intro hpre segs
      rw [show walkList rules cfg pre (FTree.file name :: rest) =
            walkList rules cfg pre rest from by
          simp only [walkList]
          rw [if_neg hgit, if_neg hcfg, if_neg hneval]]
      rw [ih hpre segs]
      simp only [treeFilesList, List.mem_cons]
      constructor
      · rintro ⟨h1, h2, h3⟩
        exact ⟨Or.inr h1, h2, h3⟩
      · rintro ⟨h1 | h1, h2, h3⟩
        · subst h1
          exact absurd h3 hneval
        · exact ⟨h1, h2, h3⟩
  | case6 pre name children rest hgit ih =>
      intro hpre segs
      exact absurd hgit (relOf_ne_git pre name hpre)
  | case7 pre name children rest hgit ih1 ih2 =>
      intro hpre segs
      rw [show walkList rules cfg pre (FTree.dir name children :: rest) =
            walkList rules cfg (pre ++ [name]) children ++ walkList rules cfg pre rest from by
          simp only [walkList]
          rw [if_neg hgit]]
      rw [List.mem_append, ih1 (by simp) segs, ih2 hpre segs]
      simp only [treeFilesList, List.mem_append]
      tauto

lemma walkList_top_iff (rules : List SearchRule) (cfg : String) :
    ∀ (t : List FTree), noTopGitFile t = true → ∀ segs,
      (segs ∈ walkList rules cfg [] t ↔
        segs ∈ treeFilesList [] t ∧ segs.head? ≠ some ".git"
        ∧ relOf segs ≠ cfg ∧ evalRules rules (relOf segs) = true) := by
  intro t
  induction t with
  | nil =>
      intro _ segs
      simp [walkList, treeFilesList]
  | cons e rest ih =>
      intro hgitfile segs
      cases e with
      | file name =>
          have hname : name ≠ ".git" := by
            have := hgitfile
            simp only [noTopGitFile, List.all_cons, Bool.and_eq_true] at this
            simpa using this.1
          have hrest : noTopGitFile rest = true := by
            have := hgitfile
            simp only [noTopGitFile, List.all_cons, Bool.and_eq_true] at this
            exact this.2
          have hgit : relOf ([] ++ [name]) ≠ ".git" := by simpa using hname
          by_cases hcfg : relOf ([] ++ [name]) = cfg
          · rw [show walkList rules cfg [] (FTree.file name :: rest) =
                  walkList rules cfg [] rest from by
                simp only [walkList]
                rw [if_neg hgit, if_pos hcfg]]
            rw [ih hrest segs]
            simp only [treeFilesList, List.mem_cons, List.nil_append]
            constructor
            · rintro ⟨h1, h2, h3, h4⟩
              exact ⟨Or.inr h1, h2, h3, h4⟩
            · rintro ⟨h1 | h1, h2, h3, h4⟩
              · subst h1
                exact absurd (by simpa using hcfg) h3
              · exact ⟨h1, h2, h3, h4⟩
          · by_cases heval : evalRules rules (relOf ([] ++ [name])) = true
            · rw [show walkList rules cfg [] (FTree.file name :: rest) =
                    ([] ++ [name]) :: walkList rules cfg [] rest from by
                  simp only [walkList]
                  rw [if_neg hgit, if_neg hcfg, if_pos heval]]
              simp only [treeFilesList, List.mem_cons, List.nil_append]
              constructor
              · rintro (rfl | h1)
                · exact ⟨Or.inl rfl, by simpa using hname, by simpa using hcfg,
                    by simpa using heval⟩
                · obtain ⟨a, b, c, d⟩ := (ih hrest segs).mp h1
                  exact ⟨Or.inr a, b, c, d⟩
              · rintro ⟨h1 | h1, h2, h3, h4⟩
                · subst h1
                  exact Or.inl rfl
                · exact Or.inr ((ih hrest segs).mpr ⟨h1, h2, h3, h4⟩)
            · rw [show walkList rules cfg [] (FTree.file name :: rest) =
                    walkList rules cfg [] rest from by
                  simp only [walkList]
                  rw [if_neg hgit, if_neg hcfg, if_neg heval]]
              rw [ih hrest segs]
              simp only [treeFilesList, List.mem_cons, List.nil_append]
              constructor
              · rintro ⟨h1, h2, h3, h4⟩
                exact ⟨Or.inr h1, h2, h3, h4⟩
              · rintro ⟨h1 | h1, h2, h3, h4⟩
                · subst h1
                  exact absurd (by simpa using h4) heval
                · exact ⟨h1, h2, h3, h4⟩
      | dir name children =>
          have hrest : noTopGitFile rest = true := by
            have := hgitfile
            simp only [noTopGitFile, List.all_cons, Bool.and_eq_true] at this
            exact this.2
          by_cases hg : relOf ([] ++ [name]) = ".git"
          · have hgname : name = ".git" := by simpa using hg
            rw [show walkList rules cfg [] (FTree.dir name children :: rest) =
                  walkList rules cfg [] rest from by
                simp only [walkList]
                rw [if_pos hg]]
            rw [ih hrest segs]
            simp only [treeFilesList, List.mem_append, List.nil_append]
            constructor
            · rintro ⟨h1, h2, h3, h4⟩
              exact ⟨Or.inr h1, h2, h3, h4⟩
            · rintro ⟨h1 | h1, h2, h3, h4⟩
              · obtain ⟨r, hr, hne⟩ := treeFilesList_shape [name] children segs h1
                subst hr
                subst hgname
                simp at h2
              · exact ⟨h1, h2, h3, h4⟩
          · rw [show walkList rules cfg [] (FTree.dir name children :: rest) =
                  walkList rules cfg ([] ++ [name]) children ++
                    walkList rules cfg [] rest from by
                simp only [walkList]
                rw [if_neg hg]]
            rw [List.mem_append,
              walkList_nested_iff rules cfg ([] ++ [name]) children (by simp) segs,
              ih hrest segs]
            simp only [treeFilesList, List.mem_append, List.nil_append]
            constructor
            · rintro (⟨h1, h3, h4⟩ | ⟨h1, h2, h3, h4⟩)
              · obtain ⟨r, hr, hne⟩ := treeFilesList_shape [name] children segs h1
                refine ⟨Or.inl h1, ?_, h3, h4⟩
                subst hr
                simpa using fun hh => hg (by simpa using hh)
              · exact ⟨Or.inr h1, h2, h3, h4⟩
            · rintro ⟨h1 | h1, h2, h3, h4⟩
              · exact Or.inl ⟨h1, h3, h4⟩
              · exact Or.inr ⟨h1, h2, h3, h4⟩

lemma walkList_top_head_ne_git (rules : List SearchRule) (cfg : String) :
    ∀ (t : List FTree) (segs : List String),
      segs ∈ walkList rules cfg [] t → segs.head? ≠ some ".git" := by
  intro t
  induction t with
  | nil =>
      intro segs hm
      simp [walkList] at hm
  | cons e rest ih =>
      intro segs hm
      cases e with
      | file name =>
          by_cases hg : relOf ([] ++ [name]) = ".git"
          · rw [show walkList rules cfg [] (FTree.file name :: rest) = [] from by
                simp only [walkList]
                rw [if_pos hg]] at hm
            simp at hm
          · by_cases hcfg : relOf ([] ++ [name]) = cfg
            · rw [show walkList rules cfg [] (FTree.file name :: rest) =
                    walkList rules cfg [] rest from by
                  simp only [walkList]
                  rw [if_neg hg, if_pos hcfg]] at hm
              exact ih segs hm
            · by_cases heval : evalRules rules (relOf ([] ++ [name])) = true
              · rw [show walkList rules cfg [] (FTree.file name :: rest) =
                      ([] ++ [name]) :: walkList rules cfg [] rest from by
                    simp only [walkList]
                    rw [if_neg hg, if_neg hcfg, if_pos heval]] at hm
                rcases List.mem_cons.mp hm with rfl | hm2
                · have hname : name ≠ ".git" := by simpa using hg
                  simpa using hname
                · exact ih segs hm2
              · rw [show walkList rules cfg [] (FTree.file name :: rest) =
                      walkList rules cfg [] rest from by
                    simp only [walkList]
                    rw [if_neg hg, if_neg hcfg, if_neg heval]] at hm
                exact ih segs hm
      | dir name children =>
          by_cases hg : relOf ([] ++ [name]) = ".git"
          · rw [show walkList rules cfg [] (FTree.dir name children :: rest) =
                  walkList rules cfg [] rest from by
                simp only [walkList]
                rw [if_pos hg]] at hm
            exact ih segs hm
          · rw [show walkList rules cfg [] (FTree.dir name children :: rest) =
                  walkList rules cfg ([] ++ [name]) children ++
                    walkList rules cfg [] rest from by
                simp only [walkList]
                rw [if_neg hg]] at hm
            rcases List.mem_append.mp hm with hm1 | hm2
            · obtain ⟨⟨r, hr, hne⟩, _, _, _⟩ := walkList_sound rules cfg _ _ segs hm1
              subst hr
              have hname : name ≠ ".git" := by simpa using hg
              simpa using hname
            · exact ih segs hm2

lemma walkList_valid_names (rules : List SearchRule) (cfg : String) :
    ∀ (pre : List String) (t : List FTree), validEntries t = true →
      ∀ segs, segs ∈ walkList rules cfg pre t →
      ∃ rest, segs = pre ++ rest ∧ rest ≠ [] ∧
        ∀ n ∈ rest, n ≠ "" ∧ '/' ∉ n.data := by
  intro pre0 t0
  induction pre0, t0 using walkList.induct rules cfg with
  | case1 pre =>
      intro _ segs hm
      simp [walkList] at hm
  | case2 pre name rest s0 r0 hgit0 =>
      have hgit : relOf (pre ++ [name]) = ".git" := hgit0
      intro hval segs hm
      rw [show walkList rules cfg pre (FTree.file name :: rest) = [] from by
          simp only [walkList]
          rw [if_pos hgit]] at hm
      simp at hm
  | case3 pre name rest s0 r0 hgit0 hcfg0 ih =>
      have hgit : relOf (pre ++ [name]) ≠ ".git" := hgit0
      have hcfg : relOf (pre ++ [name]) = cfg := hcfg0
      intro hval segs hm
      have hval2 : validEntries rest = true := by
        simp only [validEntries, Bool.and_eq_true] at hval
        exact hval.2
      rw [show walkList rules cfg pre (FTree.file name :: rest) =
            walkList rules cfg pre rest from by
          simp only [walkList]
          rw [if_neg hgit, if_pos hcfg]] at hm
      exact ih hval2 segs hm
  | case4 pre name rest s0 r0 hgit0 hcfg0 heval0 ih =>
      have hgit : relOf (pre ++ [name]) ≠ ".git" := hgit0
      have hcfg : relOf (pre ++ [name]) ≠ cfg := hcfg0
      have heval : evalRules rules (relOf (pre ++ [name])) = true := heval0
      intro hval segs hm
      have hval1 : name ≠ "" ∧ '/' ∉ name.data := by
        simp only [validEntries, Bool.and_eq_true, decide_eq_true_eq] at hval
        exact hval.1
      have hval2 : validEntries rest = true := by
        simp only [validEntries, Bool.and_eq_true] at hval
        exact hval.2
      rw [show walkList rules cfg pre (FTree.file name :: rest) =
            (pre ++ [name]) :: walkList rules cfg pre rest from by
          simp only [walkList]
          rw [if_neg hgit, if_neg hcfg, if_pos heval]] at hm
      rcases List.mem_cons.mp hm with rfl | hm2
      · exact ⟨[name], rfl, by simp, by simpa using hval1⟩
      · exact ih hval2 segs hm2
  | case5 pre name rest s0 r0 hgit0 hcfg0 hneval0 ih =>
      have hgit : relOf (pre ++ [name]) ≠ ".git" := hgit0
      have hcfg : relOf (pre ++ [name]) ≠ cfg := hcfg0
      have hneval : ¬ evalRules rules (relOf (pre ++ [name])) = true := hneval0
      intro hval segs hm
      have hval2 : validEntries rest = true := by
        simp only [validEntries, Bool.and_eq_true] at hval
        exact hval.2
      rw [show walkList rules cfg pre (FTree.file name :: rest) =
            walkList rules cfg pre rest from by
          simp only [walkList]
          rw [if_neg hgit, if_neg hcfg, if_neg hneval]] at hm
      exact ih hval2 segs hm
  | case6 pre name children rest hgit ih =>
      intro hval segs hm
      have hval2 : validEntries rest = true := by
        simp only [validEntries, Bool.and_eq_true] at hval
        exact hval.2
      rw [show walkList rules cfg pre (FTree.dir name children :: rest) =
            walkList rules cfg pre rest from by
          simp only [walkList]
          rw [if_pos hgit]] at hm
      exact ih hval2 segs hm
  | case7 pre name children rest hgit ih1 ih2 =>
      intro hval segs hm
      have hval1 : name ≠ "" ∧ '/' ∉ name.data := by
        simp only [validEntries, Bool.and_eq_true, decide_eq_true_eq] at hval
        exact hval.1.1
      have hvalc : validEntries children = true := by
        simp only [validEntries, Bool.and_eq_true] at hval
        exact hval.1.2
      have hval2 : validEntries rest = true := by
        simp only [validEntries, Bool.and_eq_true] at hval
        exact hval.2
      rw [show walkList rules cfg pre (FTree.dir name children :: rest) =
            walkList rules cfg (pre ++ [name]) children ++
              walkList rules cfg pre rest from by
          simp only [walkList]
          rw [if_neg hgit]] at hm
      rcases List.mem_append.mp hm with hm1 | hm2
      · obtain ⟨r, hr, hne, hnames⟩ := ih1 hvalc segs hm1
        refine ⟨[name] ++ r, by simp [hr], by simp, ?_⟩
        intro n hn
        rcases List.mem_append.mp hn with hn1 | hn2
        · rw [List.mem_singleton.mp hn1]
          exact hval1
        · exact hnames n hn2
      · exact ih2 hval2 segs hm2

lemma git_prefix_not_of_relOf (n : String) (rest : List String)
    (hn : n ≠ "") (hslash : '/' ∉ n.data) (hgit : n ≠ ".git") :
    ¬ ((".git/").data <+: (relOf (n :: rest)).data) := by
  intro hpre
  cases rest with
  | nil =>
      have hmem : '/' ∈ n.data := by
        have h1 : '/' ∈ (".git/").data := by decide
        exact hpre.mem h1
      exact hslash hmem
  | cons y l =>
      have hdata : (relOf (n :: y :: l)).data =
          (n.data ++ "/".data) ++ (relOf (y :: l)).data := rfl
      rw [hdata] at hpre
      obtain ⟨t2, ht⟩ := hpre
      have hch : (".git/").data = ['.', 'g', 'i', 't', '/'] := rfl
      rw [hch] at ht
      rcases hnd : n.data with _ | ⟨a, _ | ⟨b, _ | ⟨c, _ | ⟨d, _ | ⟨e, l5⟩⟩⟩⟩⟩
      · exact hn (String.ext hnd)
      · rw [hnd] at ht
        simp at ht
      · rw [hnd] at ht
        simp at ht
      · rw [hnd] at ht
        simp at ht
      · rw [hnd] at ht
        simp at ht
        obtain ⟨ha, hb, hc, hd, _⟩ := ht
        apply hgit
        apply String.ext
        rw [hnd, ← ha, ← hb, ← hc, ← hd]
      · rw [hnd] at ht
        simp at ht
        obtain ⟨_, _, _, _, he, _⟩ := ht
        apply hslash
        rw [hnd, he]
        simp

/-! ### Claim theorems: the file walker -/

/-- C2: the walker uses selection strategy (a) — membership in its output is
decided per file by the rule evaluation of that file's own relative path
alone (so it descends into directories the rules exclude, other than the
reserved top-level `.git`, and a later include rule resurrects a file nested
in an excluded directory), and only non-directory entries are ever emitted
(the output is characterised inside the tree's file paths).  In particular,
for rules `[Exclude(["out/*","build/*"]), Include(["out/foo.txt"])]` over a
tree containing `out/foo.txt`, `out/bar.txt` and `build/x`, the selection is
exactly `["out/foo.txt"]`. -/
theorem claim_C2_walker_descends_into_excluded_dirs :
    (∀ (rules : List SearchRule) (cfg : String) (t : List FTree),
        noTopGitFile t = true → ∀ segs,
        (segs ∈ walkList rules cfg [] t ↔
          segs ∈ treeFilesList [] t ∧ segs.head? ≠ some ".git"
          ∧ relOf segs ≠ cfg ∧ evalRules rules (relOf segs) = true))
    ∧ gatherFiles
        [SearchRule.exclude ["out/*", "build/*"], SearchRule.include ["out/foo.txt"]]
        [FTree.dir "build" [FTree.file "x"],
         FTree.dir "out" [FTree.file "bar.txt", FTree.file "foo.txt"]]
      = ["out/foo.txt"] := by
  constructor
  · exact fun rules cfg t h segs => walkList_top_iff rules cfg t h segs
  · simp [gatherFiles, ConfigFileName, walkList, relOf, evalRules,
      SearchRule.apply, anyMatch, testPattern, patMatch, upToSep]

/-- Witness for C2: the resurrected file `out/foo.txt` satisfies the
characterisation under the scenario's rules. -/
theorem claim_C2_witness :
    ["out", "foo.txt"] ∈ walkList
        [SearchRule.exclude ["out/*", "build/*"], SearchRule.include ["out/foo.txt"]]
        ConfigFileName []
        [FTree.dir "build" [FTree.file "x"],
         FTree.dir "out" [FTree.file "bar.txt", FTree.file "foo.txt"]] ↔
      ["out", "foo.txt"] ∈ treeFilesList []
        [FTree.dir "build" [FTree.file "x"],
         FTree.dir "out" [FTree.file "bar.txt", FTree.file "foo.txt"]]
      ∧ (["out", "foo.txt"] : List String).head? ≠ some ".git"
      ∧ relOf ["out", "foo.txt"] ≠ ConfigFileName
      ∧ evalRules
          [SearchRule.exclude ["out/*", "build/*"], SearchRule.include ["out/foo.txt"]]
          (relOf ["out", "foo.txt"]) = true :=
  claim_C2_walker_descends_into_excluded_dirs.1
    [SearchRule.exclude ["out/*", "build/*"], SearchRule.include ["out/foo.txt"]]
    ConfigFileName
    [FTree.dir "build" [FTree.file "x"],
     FTree.dir "out" [FTree.file "bar.txt", FTree.file "foo.txt"]]
    (by decide) ["out", "foo.txt"]

/-- C8: whatever the rules (even an include-everything rule set), the
walker's output never contains the configuration file at the root and never
contains any entry at or under the reserved top-level `.git` directory,
which is pruned: each emitted segment list has a head other than `.git`,
and each emitted path string differs from the configuration filename, from
`.git`, and never begins with `.git/` (for trees with real entry names,
nonempty and slash-free). -/
theorem claim_C8_reserved_entries_never_selected :
    (∀ (rules : List SearchRule) (cfg : String) (t : List FTree)
        (segs : List String),
        segs ∈ walkList rules cfg [] t →
        relOf segs ≠ cfg ∧ relOf segs ≠ ".git" ∧ segs.head? ≠ some ".git")
    ∧ (∀ (rules : List SearchRule) (t : List FTree), validEntries t = true →
        ∀ p ∈ gatherFiles rules t,
          p ≠ ConfigFileName ∧ p ≠ ".git" ∧ ¬ ((".git/").data <+: p.data)) := by
  constructor
  · intro rules cfg t segs hm
    obtain ⟨_, h2, h3, _⟩ := walkList_sound rules cfg [] t segs hm
    exact ⟨h2, h3, walkList_top_head_ne_git rules cfg t segs hm⟩
  · intro rules t hval p hp
    simp only [gatherFiles, List.mem_map] at hp
    obtain ⟨segs, hsegs, rfl⟩ := hp
    obtain ⟨_, h2, h3, _⟩ := walkList_sound rules ConfigFileName [] t segs hsegs
    refine ⟨h2, h3, ?_⟩
    obtain ⟨rest, hr, hne, hnames⟩ :=
      walkList_valid_names rules ConfigFileName [] t hval segs hsegs
    rw [List.nil_append] at hr
    subst hr
    cases segs with
    | nil => exact absurd rfl hne
    | cons n r =>
        have hhead := walkList_top_head_ne_git rules ConfigFileName t _ hsegs
        have hn : n ≠ ".git" := by simpa using hhead
        obtain ⟨hne2, hslash⟩ := hnames n (by simp)
        exact git_prefix_not_of_relOf n r hne2 hslash hn

/-- Witness for C8: with an include-everything rule over a tree holding a
`.git` directory and the config file, the selected path `x.c` avoids all
reserved entries. -/
theorem claim_C8_witness :
    "x.c" ≠ ConfigFileName ∧ "x.c" ≠ ".git" ∧
      ¬ ((".git/").data <+: "x.c".data) := by
  have hgather : gatherFiles [SearchRule.include ["**"]]
      [FTree.dir ".git" [FTree.file "HEAD"], FTree.file "license-checker.cfg",
       FTree.file "x.c"] = ["x.c"] := by
    simp [gatherFiles, ConfigFileName, walkList, relOf, evalRules,
      SearchRule.apply, anyMatch, testPattern, patMatch, upToSep]
  refine claim_C8_reserved_entries_never_selected.2 [SearchRule.include ["**"]]
    [FTree.dir ".git" [FTree.file "HEAD"], FTree.file "license-checker.cfg",
     FTree.file "x.c"] (by simp [validEntries]) "x.c" ?_
  rw [hgather]
  simp

end LicenseChecker
